import Mathlib

/-!
# Verification of the `awecut` audio-cutting tool

Shallow embedding of the parts of the program relevant to its
specification: the pack-file cache format (`src/pack.rs`), the match
engine (`src/cut.rs`, `cut_matches`), the interactive cue-curation loop
(`src/cut.rs`, `cut_interactive` / `parse_time`), and the
cross-correlation helpers (`src/audio_correlation.rs`).

Modelling conventions:
* Rust `u32` values and bytes are `Nat`s (reduced `% 2^32` / `% 256`
  where overflow matters; the decoder only ever builds values below
  those bounds).
* Rust `f32` times and scores are modelled as `ℚ`.  Every concrete
  value appearing in the specification (`3723.5`, `150.0`, cue
  timestamps, …) is exactly representable in `f32` and the arithmetic
  performed on it (`Nat`-sized multiplications by 60, additions of
  half-integers) is exact in `f32`, so the rational model agrees with
  the IEEE evaluation on the statements proved here.
* Rust strings are Lean `String`s; the string operations the source
  uses (`trim`, `split`, `rsplit`, `read_line`) are re-implemented
  below by structural recursion on the character list so that concrete
  instances reduce inside the kernel.  Rust `str::trim` strips Unicode
  White_Space; the model strips the ASCII whitespace characters, the
  only ones the formats at hand produce.
* I/O is abstracted: a reader is the list of lines it yields, a writer
  is the string written to it, and the results of external effects
  (file opens, fingerprinting, the chromaprint matcher) are passed to
  the embedded functions as explicit `Except` values.
-/

-- The Batteries rational-number operations are `irreducible`, which keeps
-- `decide` from evaluating concrete cue/score arithmetic; re-open them for
-- this file so that concrete instances reduce.
set_option allowUnsafeReducibility true
attribute [local semireducible] Rat.add Rat.mul Rat.sub Rat.inv Rat.ofScientific

/-! ## String primitives (models of the Rust `str` operations used) -/

/-- Model of Rust `str::split(sep)` for a one-character separator,
on character lists: `"" ↦ [""]`, separators at the ends produce empty
fields, exactly as in Rust. -/
def splitChar (sep : Char) : List Char → List (List Char)
  | [] => [[]]
  | c :: rest =>
    let r := splitChar sep rest
    if c = sep then [] :: r
    else match r with
      | [] => [[c]]
      | g :: gs => (c :: g) :: gs

/-- Model of Rust `str::split(sep)` (one-character separator) on strings. -/
def splitOnChar (sep : Char) (s : String) : List String :=
  (splitChar sep s.data).map String.mk

/-- ASCII whitespace, the fragment of Unicode White_Space relevant here. -/
def isRustWhitespace (c : Char) : Bool :=
  c = ' ' ∨ c = '\t' ∨ c = '\r' ∨ c = '\n'

/-- Model of Rust `str::trim` (restricted to ASCII whitespace). -/
def rustTrim (s : String) : String :=
  String.mk (((s.data.dropWhile isRustWhitespace).reverse.dropWhile
    isRustWhitespace).reverse)

/-- Model of a `BufRead` reader as the list of lines `read_line` yields:
the stream text is split at `'\n'`; a trailing newline produces no extra
empty line (the next `read_line` returns `0` and the loop stops), while a
final unterminated line is still yielded. -/
def readLines (s : String) : List String :=
  let ls := splitOnChar '\n' s
  match ls.getLast? with
  | some "" => ls.dropLast
  | _ => ls

/-! ## Base64 (model of `base64::engine::general_purpose::STANDARD`) -/

/-- The standard-alphabet character of a 6-bit value. -/
def b64CharOfSextet (v : Nat) : Char :=
  if v < 26 then Char.ofNat ('A'.toNat + v)
  else if v < 52 then Char.ofNat ('a'.toNat + (v - 26))
  else if v < 62 then Char.ofNat ('0'.toNat + (v - 52))
  else if v = 62 then '+'
  else '/'

/-- The 6-bit value of a standard-alphabet character, `none` on any
character outside the alphabet. -/
def sextetOfB64Char (c : Char) : Option Nat :=
  if 'A' ≤ c ∧ c ≤ 'Z' then some (c.toNat - 'A'.toNat)
  else if 'a' ≤ c ∧ c ≤ 'z' then some (c.toNat - 'a'.toNat + 26)
  else if '0' ≤ c ∧ c ≤ '9' then some (c.toNat - '0'.toNat + 52)
  else if c = '+' then some 62
  else if c = '/' then some 63
  else none

/-- Standard base64 encoding of a byte list, three bytes to four
characters, padded with `=`. -/
def b64EncodeChunks : List Nat → List Char
  | [] => []
  | [a] => [b64CharOfSextet (a / 4), b64CharOfSextet (a % 4 * 16), '=', '=']
  | [a, b] => [b64CharOfSextet (a / 4), b64CharOfSextet (a % 4 * 16 + b / 16),
      b64CharOfSextet (b % 16 * 4), '=']
  | a :: b :: c :: rest =>
      b64CharOfSextet (a / 4) :: b64CharOfSextet (a % 4 * 16 + b / 16) ::
      b64CharOfSextet (b % 16 * 4 + c / 64) :: b64CharOfSextet (c % 64) ::
      b64EncodeChunks rest

/-- `base64::…::STANDARD.encode` on a byte list. -/
def b64Encode (bytes : List Nat) : String := String.mk (b64EncodeChunks bytes)

/-- Standard base64 decoding of a character list: the length must be a
multiple of four, `=` padding may only close the final quartet, and
(as with the crate's default `STANDARD` engine) non-zero trailing bits
are rejected. `none` models `base64::DecodeError`. -/
def b64DecodeChunks : List Char → Option (List Nat)
  | [] => some []
  | a :: b :: c :: d :: rest => do
    let va ← sextetOfB64Char a
    let vb ← sextetOfB64Char b
    if c = '=' then
      if d = '=' ∧ rest = [] ∧ vb % 16 = 0 then some [va * 4 + vb / 16] else none
    else do
      let vc ← sextetOfB64Char c
      if d = '=' then
        if rest = [] ∧ vc % 4 = 0 then
          some [va * 4 + vb / 16, vb % 16 * 16 + vc / 4]
        else none
      else do
        let vd ← sextetOfB64Char d
        let tail ← b64DecodeChunks rest
        some ((va * 4 + vb / 16) :: (vb % 16 * 16 + vc / 4) :: (vc % 4 * 64 + vd) :: tail)
  | _ => none

/-- `base64::…::STANDARD.decode` on a string. -/
def b64Decode (s : String) : Option (List Nat) := b64DecodeChunks s.data

/-- Decidable equality for `Except` results (not derived in core). -/
instance {ε α : Type} [DecidableEq ε] [DecidableEq α] : DecidableEq (Except ε α)
  | .ok a, .ok b =>
    if h : a = b then .isTrue (by rw [h])
    else .isFalse (by intro hc; cases hc; exact h rfl)
  | .ok _, .error _ => .isFalse (by intro hc; cases hc)
  | .error _, .ok _ => .isFalse (by intro hc; cases hc)
  | .error e, .error f =>
    if h : e = f then .isTrue (by rw [h])
    else .isFalse (by intro hc; cases hc; exact h rfl)

/-! ## Pack files (`src/pack.rs`, `src/error.rs`) -/

/-- `PackError` from `src/error.rs` (error payloads of the wrapped
foreign errors are elided). -/
inductive PackError where
  | Io : PackError
  | InvalidFingerprint : PackError
  | InvalidU32 : PackError
  | InvalidLine : Nat → PackError
  | Unknown : PackError
deriving DecidableEq, Repr

/-- `PackFile` from `src/pack.rs`: the list of `(name, fingerprint)`
entries, fingerprints being sequences of 32-bit words. -/
structure PackFile where
  fingerprint : List (String × List Nat)
deriving DecidableEq, Repr

/-- `u32::from_le_bytes` on four byte values. -/
def u32FromLeBytes (b0 b1 b2 b3 : Nat) : Nat :=
  b0 + 256 * b1 + 65536 * b2 + 16777216 * b3

/-- `u32::to_be_bytes`: most significant byte first. -/
def u32BeBytes (x : Nat) : List Nat :=
  [x / 16777216 % 256, x / 65536 % 256, x / 256 % 256, x % 256]

/-- Model of `fp_bytes.get(4*i..4*i+4)`: a slice of a Rust byte vector,
`none` when the requested range exceeds the vector. -/
def slice4 (bs : List Nat) (k : Nat) : Option (List Nat) :=
  if k + 4 ≤ bs.length then some ((bs.drop k).take 4) else none

/-- The word-extraction loop of `PackFile::decode`:
`for i in 0..(fp_bytes.len() / 4)` reads the slice `4*i .. 4*i+4` and
turns it into a little-endian `u32`, failing with `InvalidU32` when the
slice cannot be taken. `i` counts from the given start, `n` iterations
remain. -/
def wordsFromBytesAux (bs : List Nat) : Nat → Nat → Except PackError (List Nat)
  | _, 0 => .ok []
  | i, n + 1 =>
    match slice4 bs (4 * i) with
    | some [b0, b1, b2, b3] =>
      match wordsFromBytesAux bs (i + 1) n with
      | .error e => .error e
      | .ok rest => .ok (u32FromLeBytes b0 b1 b2 b3 :: rest)
    | _ => .error PackError.InvalidU32

/-- All fingerprint words of a decoded byte payload (the full loop of
`PackFile::decode`). -/
def wordsFromBytes (bs : List Nat) : Except PackError (List Nat) :=
  wordsFromBytesAux bs 0 (bs.length / 4)

/-- One iteration of the `PackFile::decode` loop on the line with
0-based index `i`: trim, split at `':'` (exactly two parts or
`InvalidLine i`), base64-decode the payload (or `InvalidFingerprint`),
then extract the words. -/
def decodeLine (line : String) (i : Nat) : Except PackError (String × List Nat) :=
  if (splitOnChar ':' (rustTrim line)).length = 2 then
    match b64Decode ((splitOnChar ':' (rustTrim line)).getD 1 "") with
    | none => .error PackError.InvalidFingerprint
    | some bytes =>
      match wordsFromBytes bytes with
      | .error e => .error e
      | .ok fp => .ok ((splitOnChar ':' (rustTrim line)).getD 0 "", fp)
  else .error (PackError.InvalidLine i)

/-- The `PackFile::decode` loop over the remaining lines, the first one
carrying index `i`; the first failing line's error aborts the whole
decode (the Rust `?`). -/
def decodeLinesFrom : List String → Nat → Except PackError (List (String × List Nat))
  | [], _ => .ok []
  | line :: rest, i =>
    match decodeLine line i with
    | .error e => .error e
    | .ok e =>
      match decodeLinesFrom rest (i + 1) with
      | .error er => .error er
      | .ok es => .ok (e :: es)

/-- `PackFile::decode` on the full stream contents (`decode_async` is
line-for-line identical). -/
def PackFile.decode (s : String) : Except PackError PackFile :=
  match decodeLinesFrom (readLines s) 0 with
  | .error e => .error e
  | .ok fps => .ok ⟨fps⟩

/-- `PackFile::encode`: each entry becomes the line
`name:base64(big-endian words)` terminated by `\n` (`writeln!`);
the inner loops push the `to_be_bytes` of every word in order
(`encode_async` is identical). -/
def PackFile.encode (p : PackFile) : String :=
  String.join (p.fingerprint.map fun e =>
    e.1 ++ ":" ++ b64Encode (e.2.foldr (fun x acc => u32BeBytes x ++ acc) []) ++ "\n")

/-! ## Number parsing (models of `f32::from_str`, `u32::from_str`,
`usize::from_str` as used by the interactive loop) -/

/-- Value of a non-empty digit string. -/
def digitsNat (cs : List Char) : Nat :=
  cs.foldl (fun acc c => acc * 10 + (c.toNat - '0'.toNat)) 0

/-- Model of `u32::from_str`: optional `+`, then only digits, value
within `u32` range. -/
def parseU32 (s : String) : Option Nat :=
  let cs := match s.data with
    | '+' :: rest => rest
    | cs => cs
  if cs = [] ∨ ¬ cs.all Char.isDigit then none
  else if digitsNat cs < 4294967296 then some (digitsNat cs) else none

/-- Model of `usize::from_str` (64-bit target): optional `+`, then only
digits, value within `u64` range. -/
def parseUsize (s : String) : Option Nat :=
  let cs := match s.data with
    | '+' :: rest => rest
    | cs => cs
  if cs = [] ∨ ¬ cs.all Char.isDigit then none
  else if digitsNat cs < 18446744073709551616 then some (digitsNat cs) else none

/-- Exponent suffix of a float literal: optional sign, then digits. -/
def parseExpSuffix (cs : List Char) : Option Int :=
  let (sgn, cs) := match cs with
    | '+' :: rest => ((1 : Int), rest)
    | '-' :: rest => ((-1 : Int), rest)
    | cs => ((1 : Int), cs)
  if cs = [] ∨ ¬ cs.all Char.isDigit then none
  else some (sgn * digitsNat cs)

/-- Apply a base-ten exponent to a rational mantissa. -/
def applyExp (m : ℚ) (e : Int) : ℚ :=
  if 0 ≤ e then m * (10 : ℚ) ^ e.toNat else m / (10 : ℚ) ^ (-e).toNat

/-- Model of `f32::from_str` on finite decimal literals, with the
rational value standing in for the `f32`:
`sign? (digits (. digits?)? | . digits) ((e|E) sign? digits)?`.
The special forms `inf`/`nan` have no rational counterpart and are not
modelled; no statement below depends on them. -/
def parseF32 (s : String) : Option ℚ :=
  let (sgn, cs) := match s.data with
    | '+' :: rest => ((1 : ℚ), rest)
    | '-' :: rest => ((-1 : ℚ), rest)
    | cs => ((1 : ℚ), cs)
  let intPart := cs.takeWhile Char.isDigit
  let cs1 := cs.dropWhile Char.isDigit
  match cs1 with
  | [] => if intPart = [] then none else some (sgn * digitsNat intPart)
  | '.' :: rest =>
    let fracPart := rest.takeWhile Char.isDigit
    let cs2 := rest.dropWhile Char.isDigit
    if intPart = [] ∧ fracPart = [] then none
    else
      let m : ℚ := digitsNat intPart + digitsNat fracPart / (10 : ℚ) ^ fracPart.length
      match cs2 with
      | [] => some (sgn * m)
      | e :: rest2 =>
        if e = 'e' ∨ e = 'E' then do
          let ex ← parseExpSuffix rest2
          some (sgn * applyExp m ex)
        else none
  | e :: rest =>
    if (e = 'e' ∨ e = 'E') ∧ intPart ≠ [] then do
      let ex ← parseExpSuffix rest
      some (sgn * applyExp (digitsNat intPart) ex)
    else none

/-! ## The interactive session (`src/cut.rs`) -/

/-- `InteractiveError` as used by `parse_time` in `src/cut.rs` (the
enum itself is referenced from `crate::error`; only its `ParsingError`
variant is exercised). -/
inductive InteractiveError where
  | ParsingError : String → InteractiveError
deriving DecidableEq, Repr

/-- The body of `parse_time` after `time.rsplit(":").collect()`:
`dur.get(0)` is the last `:`-component (seconds, parsed as `f32`),
`dur.get(1)` minutes and `dur.get(2)` hours (parsed as `u32`); any
components beyond the third are never read. -/
def parseTimeComps : List String → Except InteractiveError ℚ
  | [] => .error (.ParsingError "failed to parse duration: empty")
  | [s0] =>
    match parseF32 s0 with
    | some secs => .ok secs
    | none => .error (.ParsingError "failed to parse duration")
  | [s0, s1] =>
    match parseU32 s1 with
    | none => .error (.ParsingError "failed to parse duration")
    | some mins =>
      match parseF32 s0 with
      | some secs => .ok ((mins : ℚ) * 60 + secs)
      | none => .error (.ParsingError "failed to parse duration")
  | s0 :: s1 :: s2 :: _ =>
    match parseU32 s2 with
    | none => .error (.ParsingError "failed to parse duration")
    | some hours =>
      match parseU32 s1 with
      | none => .error (.ParsingError "failed to parse duration")
      | some mins =>
        match parseF32 s0 with
        | some secs => .ok (((hours : ℚ) * 60 + (mins : ℚ)) * 60 + secs)
        | none => .error (.ParsingError "failed to parse duration")

/-- `time.rsplit(":")` collected into a vector: the components of the
`':'`-split in reverse order. -/
def rsplitColon (s : String) : List String :=
  (splitOnChar ':' s).reverse

/-- `parse_time` from `src/cut.rs`. -/
def parse_time (time : String) : Except InteractiveError ℚ :=
  parseTimeComps (rsplitColon time)

/-- The loop of `slice::binary_search_by` from the Rust standard
library, on a cue list compared against `time` through
`partial_cmp` (total on the non-`NaN` values modelled by `ℚ`).
`fuel` bounds the iteration count; every call below supplies more fuel
than the initial `right - left`, which strictly decreases, so the
fuel-exhaustion arm is never taken. `.inl` is `Ok(mid)` (exact hit),
`.inr` is `Err(left)` (insertion point). -/
def rustBinarySearchAux (l : List ℚ) (t : ℚ) : Nat → Nat → Nat → Sum Nat Nat
  | 0, left, _ => .inr left
  | fuel + 1, left, right =>
    if left < right then
      if l.getD (left + (right - left) / 2) 0 < t then
        rustBinarySearchAux l t fuel (left + (right - left) / 2 + 1) right
      else if t < l.getD (left + (right - left) / 2) 0 then
        rustBinarySearchAux l t fuel left (left + (right - left) / 2)
      else .inl (left + (right - left) / 2)
    else .inr left

/-- `cues.binary_search_by(|c| c.partial_cmp(&time).unwrap())`. -/
def rustBinarySearch (l : List ℚ) (t : ℚ) : Sum Nat Nat :=
  rustBinarySearchAux l t (l.length + 1) 0 l.length

/-- Outcome of processing one input line of `cut_interactive`:
the loop continues (`next`) or stops normally (`halt`) with the given
cue list, or the process aborts (`crash` — the out-of-range
`Vec::remove` panic). External effects (printing, frame extraction)
are elided; they never touch the cue list. -/
inductive StepResult where
  | next : List ℚ → StepResult
  | halt : List ℚ → StepResult
  | crash : StepResult
deriving DecidableEq, Repr

/-- The cue list seeded before the command loop of `cut_interactive`:
`cues.push(0.0); cues.push(duration)`. -/
def initCues (duration : ℚ) : List ℚ :=
  (([] : List ℚ).concat 0).concat duration

/-- One iteration of the `cut_interactive` command loop on the cue list
`cues` for the line `buf` (already read; the end-of-input and empty-read
cases are handled by the enclosing loop): trim and split on `' '`,
dispatch on the first token.  `add` parses the time and inserts at the
`binary_search` position (`Ok` and `Err` insert alike); `remove` and its
aliases parse a `usize` and call `Vec::remove`, which panics when the
index is out of range; parse failures only print and continue.
`inspect`, `matches`, `cues`, `help` and unknown commands never change
the cue list; `exit`/`quit` leave the loop. -/
def cut_interactive_step (cues : List ℚ) (buf : String) : StepResult :=
  let comps := splitOnChar ' ' (rustTrim buf)
  if comps.length = 0 then .next cues
  else
    match comps.getD 0 "" with
    | "exit" => .halt cues
    | "quit" => .halt cues
    | "help" => .next cues
    | "matches" => .next cues
    | "cues" => .next cues
    | "add" =>
      if comps.length > 1 then
        match parse_time (comps.getD 1 "") with
        | .error _ => .next cues
        | .ok time =>
          match rustBinarySearch cues time with
          | .inl i => .next (cues.insertIdx i time)
          | .inr i => .next (cues.insertIdx i time)
      else .next cues
    | "remove" | "rem" | "del" | "delete" =>
      if comps.length > 1 then
        match parseUsize (comps.getD 1 "") with
        | some index =>
          if index < cues.length then .next (cues.eraseIdx index) else .crash
        | none => .next cues
      else .next cues
    | "inspect" => .next cues
    | _ => .next cues

/-- The observable cue list of a step outcome (`none` when the process
panicked). -/
def stepCues : StepResult → Option (List ℚ)
  | .next c => some c
  | .halt c => some c
  | .crash => none

/-! ## The match engine (`cut_matches`, `src/cut.rs`)

`cut_matches` interleaves pure aggregation with I/O and concurrency:
pack files are opened and decoded by spawned tasks, the input
fingerprint is computed from the file on disk, and per-entry matches
run on a thread pool.  The embedding abstracts every effect as the
value it produces: the input-fingerprint computation is an
`Except CutError` value, each pack load is an
`Except CutError (List (String × List Nat))` (one per path, in the
deterministic order of the argument lists — the unordered completion
of the futures does not affect the score-sorted results), and the
chromaprint matcher is a function argument.  The progress bars and the
log calls on the dropped units are elided. -/

/-- `rusty_chromaprint::Segment`: an aligned region with its score
(a non-`NaN` float, modelled by `ℚ`). -/
structure Segment where
  offset1 : Nat
  offset2 : Nat
  itemsCount : Nat
  score : ℚ
deriving DecidableEq, Repr

/-- `rusty_chromaprint::MatchError` (opaque foreign error). -/
inductive MatchError where
  | err : MatchError
deriving DecidableEq, Repr

/-- `CutError` from `src/error.rs` (foreign payloads elided, the
`Pack` payload kept). -/
inductive CutError where
  | Io : CutError
  | Fingerprint : CutError
  | Pack : PackError → CutError
  | Command : CutError
  | PrinterMatch : MatchError → CutError
  | Unknown : CutError
deriving DecidableEq, Repr

/-- The per-entry match task: `match_fingerprints(&input_fg, &fp, &config)`,
an `Err` being logged and treated as zero segments for that entry. -/
def matchedSegments (matchFn : List Nat → List Nat → Except MatchError (List Segment))
    (inputFg fp : List Nat) : List Segment :=
  match matchFn inputFg fp with
  | .ok segs => segs
  | .error _ => []

/-- The drain loop over the pack-load futures of one side: a loaded
pack contributes one `(name, segments)` pair per entry; a failed load
is logged and contributes nothing. -/
def collectSegments (matchFn : List Nat → List Nat → Except MatchError (List Segment))
    (inputFg : List Nat) :
    List (Except CutError (List (String × List Nat))) → List (String × List Segment)
  | [] => []
  | .ok entries :: rest =>
      entries.map (fun e => (e.1, matchedSegments matchFn inputFg e.2)) ++
        collectSegments matchFn inputFg rest
  | .error _ :: rest => collectSegments matchFn inputFg rest

/-- The flattening step: each segment is tagged with its origin name
(`Arc<String>` sharing elided). -/
def flattenTagged (ps : List (String × List Segment)) : List (String × Segment) :=
  (ps.map (fun p => p.2.map (fun seg => (p.1, seg)))).flatten

/-- `sort_unstable_by(|(_, seg1), (_, seg2)| seg1.score.partial_cmp(&seg2.score).unwrap())`:
a comparison sort by score.  The model uses a structurally recursive
sort over the same key; the source's pattern-defeating quicksort
guarantees nothing beyond a reordering sorted by the comparator, which
is all the statements below use. -/
def sortByScore (l : List (String × Segment)) : List (String × Segment) :=
  List.insertionSort (fun a b => a.2.score ≤ b.2.score) l

instance : IsTrans (String × Segment) (fun a b => a.2.score ≤ b.2.score) :=
  ⟨fun _ _ _ hab hbc => le_trans hab hbc⟩

instance : IsTotal (String × Segment) (fun a b => a.2.score ≤ b.2.score) :=
  ⟨fun a b => le_total a.2.score b.2.score⟩

/-- `cut_matches` from `src/cut.rs` with its effects abstracted (see
the section comment): the input fingerprint's `?` makes any hard
failure abort the call; each side's packs are drained, matched,
flattened, tagged and score-sorted. -/
def cut_matches (inputFg : Except CutError (List Nat))
    (incLoads excLoads : List (Except CutError (List (String × List Nat))))
    (matchFn : List Nat → List Nat → Except MatchError (List Segment)) :
    Except CutError (List (String × Segment) × List (String × Segment)) :=
  match inputFg with
  | .error e => .error e
  | .ok fg =>
      .ok (sortByScore (flattenTagged (collectSegments matchFn fg incLoads)),
           sortByScore (flattenTagged (collectSegments matchFn fg excLoads)))

/-- `Ok`-ness of one pack-load result (used to state that failed loads
are dropped). -/
def loadOk : Except CutError (List (String × List Nat)) → Bool
  | .ok _ => true
  | .error _ => false

/-! ## Cross-correlation helpers (`src/audio_correlation.rs`) -/

/-- `rustfft::num_complex::Complex<f32>`, with the rational model of
its components (`zero_pad` only moves values, so no rounding occurs). -/
structure Cplx where
  re : ℚ
  im : ℚ
deriving DecidableEq, Repr

/-- `zero_pad` from `src/audio_correlation.rs`: `none` models the
`panic!` on an input longer than the target length; otherwise a vector
of `length` zeros is allocated and the loop
`for i in 0..input_len { padded[i] = Complex::new(input[i], 0.0) }`
overwrites the first `input_len` slots. -/
def zero_pad (input : List ℚ) (length : Nat) : Option (List Cplx) :=
  if input.length > length then none
  else some ((List.range input.length).foldl
    (fun padded i => padded.set i ⟨input.getD i 0, 0⟩)
    (List.replicate length ⟨0, 0⟩))

/-! ## Pack-format theorems (claims C1, C3, C7) -/

/-- A list of length four is a four-element literal. -/
lemma list_length_four {l : List Nat} (h : l.length = 4) :
    ∃ b0 b1 b2 b3, l = [b0, b1, b2, b3] := by
  rcases l with _ | ⟨b0, _ | ⟨b1, _ | ⟨b2, _ | ⟨b3, _ | ⟨b4, l⟩⟩⟩⟩⟩ <;>
    simp only [List.length_cons, List.length_nil] at h <;> try omega
  exact ⟨b0, b1, b2, b3, rfl⟩

/-- As long as four bytes remain per pending iteration, the
word-extraction loop succeeds and yields one word per iteration. -/
lemma wordsFromBytesAux_ok (bs : List Nat) :
    ∀ n i, 4 * (i + n) ≤ bs.length →
    ∃ ws, wordsFromBytesAux bs i n = .ok ws ∧ ws.length = n := by
  intro n
  induction n with
  | zero => exact fun i _ => ⟨[], rfl, rfl⟩
  | succ n ih =>
    intro i h
    have h4 : 4 * i + 4 ≤ bs.length := by omega
    have hslice : slice4 bs (4 * i) = some ((bs.drop (4 * i)).take 4) := by
      simp [slice4, h4]
    have hlen : ((bs.drop (4 * i)).take 4).length = 4 := by
      simp only [List.length_take, List.length_drop]
      omega
    obtain ⟨b0, b1, b2, b3, hb⟩ := list_length_four hlen
    obtain ⟨ws, hws, hwslen⟩ := ih (i + 1) (by omega)
    refine ⟨u32FromLeBytes b0 b1 b2 b3 :: ws, ?_, by simp [hwslen]⟩
    rw [hb] at hslice
    simp [wordsFromBytesAux, hslice, hws]

/-- The word loop of `PackFile::decode` never fails: it runs
`fp_bytes.len() / 4` iterations, so the slice `4*i .. 4*i+4` always
exists and the `InvalidU32` arm is unreachable. -/
lemma wordsFromBytes_ok (bs : List Nat) :
    ∃ ws, wordsFromBytes bs = .ok ws ∧ ws.length = bs.length / 4 := by
  have hle : 4 * (0 + bs.length / 4) ≤ bs.length := by
    have := Nat.div_mul_le_self bs.length 4
    omega
  simpa [wordsFromBytes] using wordsFromBytesAux_ok bs (bs.length / 4) 0 hle

/-- A single line never decodes to the `InvalidU32` error. -/
lemma decodeLine_ne_invalidU32 (line : String) (i : Nat) :
    decodeLine line i ≠ .error PackError.InvalidU32 := by
  unfold decodeLine
  split
  · cases hb : b64Decode ((splitOnChar ':' (rustTrim line)).getD 1 "") with
    | none => simp
    | some bytes =>
      obtain ⟨ws, hws, _⟩ := wordsFromBytes_ok bytes
      simp [hws]
  · simp

/-- The line loop never produces the `InvalidU32` error. -/
lemma decodeLinesFrom_ne_invalidU32 :
    ∀ (lines : List String) (i : Nat),
      decodeLinesFrom lines i ≠ .error PackError.InvalidU32 := by
  intro lines
  induction lines with
  | nil => intro i; simp [decodeLinesFrom]
  | cons line rest ih =>
    intro i
    cases hd : decodeLine line i with
    | error e =>
      have hne : e ≠ PackError.InvalidU32 := fun he =>
        decodeLine_ne_invalidU32 line i (he ▸ hd)
      simp [decodeLinesFrom, hd, hne]
    | ok v =>
      cases hr : decodeLinesFrom rest (i + 1) with
      | error e =>
        have hne : e ≠ PackError.InvalidU32 := fun he => ih (i + 1) (he ▸ hr)
        simp [decodeLinesFrom, hd, hr, hne]
      | ok vs => simp [decodeLinesFrom, hd, hr]

/-- Claim C1 (refuted; code bug): the round-trip law
`decode(encode(pack)) == pack` with big-endian-packed words fails on
the code: `encode` packs each word big-endian (`to_be_bytes`) but
`decode` unpacks little-endian (`from_le_bytes`), so the round trip
byte-swaps every word — on the pack `[("a", [1])]`, decoding the
encoding yields `[("a", [16777216])]`, not the original. -/
theorem claim_C1_roundtrip_byte_swapped :
    PackFile.decode (PackFile.encode ⟨[("a", [1])]⟩) =
      .ok ⟨[("a", [16777216])]⟩ ∧
    PackFile.decode (PackFile.encode ⟨[("a", [1])]⟩) ≠ .ok ⟨[("a", [1])]⟩ := by
  decide

/-- Claim C2 (refuted; code bug): `remove 99` on the five-element cue
list `[0, 5, 10, 20, 30]` does not produce a local error that leaves
the list unchanged — `let _ = cues.remove(index)` calls `Vec::remove`,
which panics on an out-of-range index, aborting the session. -/
theorem claim_C2_remove_out_of_range_panics :
    cut_interactive_step [0, 5, 10, 20, 30] "remove 99" = .crash ∧
    ∀ cues', cut_interactive_step [0, 5, 10, 20, 30] "remove 99" ≠ .next cues' := by
  refine ⟨by decide, fun cues' h => ?_⟩
  rw [(by decide : cut_interactive_step [0, 5, 10, 20, 30] "remove 99" =
    StepResult.crash)] at h
  exact StepResult.noConfusion h

/-- Claim C3 (counterexample): a pack line whose base64 payload decodes
to five bytes — not a multiple of four — is NOT rejected with
`InvalidU32`: decode succeeds, ignoring the trailing byte
(`"AAAAAAA="` decodes to five zero bytes, yielding the single word 0). -/
theorem claim_C3_counterexample :
    PackFile.decode "n:AAAAAAA=\n" = .ok ⟨[("n", [0])]⟩ ∧
    PackFile.decode "n:AAAAAAA=\n" ≠ .error PackError.InvalidU32 := by
  decide

/-- Claim C3 (amended): the word loop runs `fp_bytes.len() / 4`
iterations, so a payload whose byte count is not a multiple of four
has its trailing bytes silently ignored — one word per full 4-byte
group — and decode never returns `InvalidU32` on any input. -/
theorem claim_C3_trailing_bytes_ignored :
    (∀ bs : List Nat, ∃ ws, wordsFromBytes bs = .ok ws ∧
      ws.length = bs.length / 4) ∧
    (∀ s : String, PackFile.decode s ≠ .error PackError.InvalidU32) := by
  refine ⟨wordsFromBytes_ok, fun s => ?_⟩
  unfold PackFile.decode
  cases hd : decodeLinesFrom (readLines s) 0 with
  | error e =>
    have hne : e ≠ PackError.InvalidU32 := fun he =>
      decodeLinesFrom_ne_invalidU32 (readLines s) 0 (he ▸ hd)
    simp [hne]
  | ok fps => simp

/-- The line index passed to `decodeLine` only affects the
`InvalidLine` error payload: a line that decodes successfully decodes
to the same value at every index. -/
lemma decodeLine_ok_index_indep (line : String) (j : Nat) (v : String × List Nat)
    (h : decodeLine line j = .ok v) : ∀ k, decodeLine line k = .ok v := by
  intro k
  by_cases hc : (splitOnChar ':' (rustTrim line)).length = 2
  · unfold decodeLine at h ⊢
    rw [if_pos hc] at h ⊢
    exact h
  · unfold decodeLine at h
    rw [if_neg hc] at h
    exact absurd h (by simp)

/-- If every line before index `i` decodes and line `i` does not split
into exactly two `:`-parts, the loop started at counter `k` fails with
`InvalidLine (k + i)`. -/
lemma decodeLinesFrom_invalidLine :
    ∀ (lines : List String) (k i : Nat), i < lines.length →
    (∀ j, j < i → ∃ v, decodeLine (lines.getD j "") 0 = .ok v) →
    (splitOnChar ':' (rustTrim (lines.getD i ""))).length ≠ 2 →
    decodeLinesFrom lines k = .error (PackError.InvalidLine (k + i)) := by
  intro lines
  induction lines with
  | nil => intro k i hi _ _; simp at hi
  | cons line rest ih =>
    intro k i hi hok hbad
    cases i with
    | zero =>
      have hbad' : (splitOnChar ':' (rustTrim line)).length ≠ 2 := by
        simpa using hbad
      have hline : decodeLine line k = .error (PackError.InvalidLine k) := by
        unfold decodeLine
        rw [if_neg hbad']
      simp [decodeLinesFrom, hline]
    | succ i' =>
      obtain ⟨v, hv⟩ := hok 0 (Nat.succ_pos i')
      have hv' : decodeLine line 0 = .ok v := by simpa using hv
      have hline : decodeLine line k = .ok v :=
        decodeLine_ok_index_indep line 0 v hv' k
      have hrest : decodeLinesFrom rest (k + 1) =
          .error (PackError.InvalidLine (k + 1 + i')) := by
        refine ih (k + 1) i' (by simpa using hi) ?_ ?_
        · intro j hj
          simpa using hok (j + 1) (by omega)
        · simpa using hbad
      have harith : k + 1 + i' = k + (i' + 1) := by omega
      rw [harith] at hrest
      simp [decodeLinesFrom, hline, hrest]

/-- Claim C7 (confirmed): for every input stream whose `i`-th read line
(0-based) does not contain exactly one `:` separator after trimming,
all earlier lines being well-formed, decode fails with `InvalidLine`
carrying exactly the index `i`. -/
theorem claim_C7_invalid_line_index (s : String) (i : Nat)
    (hi : i < (readLines s).length)
    (hok : ∀ j, j < i → ∃ v, decodeLine ((readLines s).getD j "") j = .ok v)
    (hbad : (splitOnChar ':' (rustTrim ((readLines s).getD i ""))).length ≠ 2) :
    PackFile.decode s = .error (PackError.InvalidLine i) := by
  have hok0 : ∀ j, j < i → ∃ v, decodeLine ((readLines s).getD j "") 0 = .ok v := by
    intro j hj
    obtain ⟨v, hv⟩ := hok j hj
    exact ⟨v, decodeLine_ok_index_indep _ j v hv 0⟩
  have h0 := decodeLinesFrom_invalidLine (readLines s) 0 i hi hok0 hbad
  unfold PackFile.decode
  rw [h0]
  simp

/-- Witness for C7: the stream `"a:AAAA\nx\n"` has a well-formed line 0
and a line 1 with no `:`; decode fails with `InvalidLine 1`. -/
theorem claim_C7_invalid_line_index_witness :
    PackFile.decode "a:AAAA\nx\n" = .error (PackError.InvalidLine 1) := by
  refine claim_C7_invalid_line_index "a:AAAA\nx\n" 1 (by decide) ?_ (by decide)
  intro j hj
  have hj0 : j = 0 := by omega
  subst hj0
  exact ⟨("a", []), by decide⟩

/-! ## `parse_time` theorems (claims C8, C10) -/

/-- `parse_time`'s final match arm only reads the first three entries
of the reversed component list: components beyond the third are
ignored. -/
lemma parseTimeComps_take3 (l : List String) (h : 3 ≤ l.length) :
    parseTimeComps l = parseTimeComps (l.take 3) := by
  rcases l with _ | ⟨a, _ | ⟨b, _ | ⟨c, rest⟩⟩⟩
  · simp at h
  · simp at h
  · simp at h
  · rfl

/-- Claim C8 (confirmed): `parse_time` accepts bare seconds and
`[[hh:]mm:]ss[.frac]` notation (`"01:02:03.5" ↦ 3723.5`, `"90" ↦ 90`,
`"2:30" ↦ 150`); a malformed argument yields a parse error and the
enclosing `add` command leaves the cue list unchanged. -/
theorem claim_C8_parse_time_values :
    parse_time "01:02:03.5" = .ok (3723.5 : ℚ) ∧
    parse_time "90" = .ok 90 ∧
    parse_time "2:30" = .ok 150 ∧
    (∃ c, parse_time "abc" = .error (InteractiveError.ParsingError c)) ∧
    (∀ cues : List ℚ, cut_interactive_step cues "add abc" = .next cues) := by
  refine ⟨by decide, by decide, by decide,
    ⟨"failed to parse duration", by decide⟩, fun cues => rfl⟩

/-- Claim C10 (confirmed): `parse_time` splits on `:` from the right
and uses at most the last three components; on four or more components
the leading ones are silently ignored — `"1:2:3:4"` parses to
`2*3600 + 3*60 + 4 = 7384`. -/
theorem claim_C10_extra_components_ignored :
    parse_time "1:2:3:4" = .ok (7384 : ℚ) ∧
    ∀ s : String, 4 ≤ (rsplitColon s).length →
      parse_time s = parseTimeComps ((rsplitColon s).take 3) := by
  exact ⟨by decide, fun s h => parseTimeComps_take3 (rsplitColon s) (by omega)⟩

/-- Witness for C10: on `"1:2:3:4"` (four components) the parse indeed
coincides with the parse of the last three components. -/
theorem claim_C10_extra_components_ignored_witness :
    parse_time "1:2:3:4" = parseTimeComps ((rsplitColon "1:2:3:4").take 3) :=
  claim_C10_extra_components_ignored.2 "1:2:3:4" (by decide)

/-! ## Match-engine theorems (claims C4, C5) -/

/-- Dropping the failed loads does not change the collected segments:
the drain loop skips `Err` results. -/
lemma collectSegments_filter
    (m : List Nat → List Nat → Except MatchError (List Segment)) (fg : List Nat) :
    ∀ loads, collectSegments m fg (loads.filter loadOk) = collectSegments m fg loads := by
  intro loads
  induction loads with
  | nil => rfl
  | cons r rest ih =>
    cases r with
    | ok es => simp [List.filter_cons, loadOk, collectSegments, ih]
    | error e => simp [List.filter_cons, loadOk, collectSegments, ih]

/-- Claim C4 (confirmed): `cut_matches` fails exactly on a hard
failure of the input's own fingerprint (whose error it propagates);
with a computed input fingerprint it always succeeds; failed pack
loads are dropped without affecting the other packs' results; an entry
whose match fails contributes nothing; and with zero packs it returns
two empty lists. -/
theorem claim_C4_error_containment :
    (∀ (e : CutError) incs excs f, cut_matches (.error e) incs excs f = .error e) ∧
    (∀ (fg : List Nat) incs excs f, ∃ r, cut_matches (.ok fg) incs excs f = .ok r) ∧
    (∀ (fg : List Nat) incs excs f,
      cut_matches (.ok fg) incs excs f =
        cut_matches (.ok fg) (incs.filter loadOk) (excs.filter loadOk) f) ∧
    (∀ (fg : List Nat) (n : String) (fp : List Nat) incs excs f (e : MatchError),
      f fg fp = .error e →
      cut_matches (.ok fg) (.ok [(n, fp)] :: incs) excs f =
        cut_matches (.ok fg) incs excs f) ∧
    (∀ (fg : List Nat) f, cut_matches (.ok fg) [] [] f = .ok ([], [])) := by
  refine ⟨fun e incs excs f => rfl, fun fg incs excs f => ⟨_, rfl⟩, ?_, ?_,
    fun fg f => rfl⟩
  · intro fg incs excs f
    simp [cut_matches, collectSegments_filter]
  · intro fg n fp incs excs f e hf
    simp [cut_matches, collectSegments, matchedSegments, hf, flattenTagged]

/-- Witness for C4 (the match-failure clause): a single entry whose
match errors yields the same result as no entry at all. -/
theorem claim_C4_error_containment_witness :
    (fun (_ _ : List Nat) => (Except.error MatchError.err : Except MatchError (List Segment)))
        [] [] = .error MatchError.err ∧
    cut_matches (.ok []) [.ok [("n", [])]] [] (fun _ _ => .error MatchError.err) =
      cut_matches (.ok []) [] [] (fun _ _ => .error MatchError.err) :=
  ⟨rfl, claim_C4_error_containment.2.2.2.1 [] "n" [] [] []
    (fun _ _ => .error MatchError.err) MatchError.err rfl⟩

/-- Claim C5 (confirmed): both result lists of a successful
`cut_matches` call are sorted ascending by segment score — every
adjacent pair is ordered. -/
theorem claim_C5_results_sorted_by_score
    (inputFg : Except CutError (List Nat))
    (incs excs : List (Except CutError (List (String × List Nat))))
    (f : List Nat → List Nat → Except MatchError (List Segment))
    (inc exc : List (String × Segment))
    (h : cut_matches inputFg incs excs f = .ok (inc, exc)) :
    inc.Chain' (fun a b => a.2.score ≤ b.2.score) ∧
    exc.Chain' (fun a b => a.2.score ≤ b.2.score) := by
  cases inputFg with
  | error e => exact absurd h (by simp [cut_matches])
  | ok fg =>
    have h' : sortByScore (flattenTagged (collectSegments f fg incs)) = inc ∧
        sortByScore (flattenTagged (collectSegments f fg excs)) = exc := by
      simpa [cut_matches, Prod.ext_iff] using h
    obtain ⟨h1, h2⟩ := h'
    subst h1; subst h2
    unfold sortByScore
    constructor <;>
      exact (List.sorted_insertionSort
        (fun a b : String × Segment => a.2.score ≤ b.2.score) _).chain'

/-- Witness for C5: a pack with two entries scoring 2 and 1 is
returned in ascending score order. -/
theorem claim_C5_results_sorted_by_score_witness :
    List.Chain' (fun a b : String × Segment => a.2.score ≤ b.2.score)
      [("b", ⟨0, 0, 0, 1⟩), ("a", ⟨0, 0, 0, 2⟩)] ∧
    List.Chain' (fun a b : String × Segment => a.2.score ≤ b.2.score) [] :=
  claim_C5_results_sorted_by_score (.ok []) [.ok [("a", []), ("b", [0])]] []
    (fun _ fp => .ok [⟨0, 0, 0, if fp = [] then 2 else 1⟩])
    [("b", ⟨0, 0, 0, 1⟩), ("a", ⟨0, 0, 0, 2⟩)] [] (by decide)

/-! ## `zero_pad` theorems (claim C9) -/

/-- The write loop of `zero_pad` never changes the vector's length. -/
lemma zero_pad_foldl_length (input : List ℚ) (n : Nat) :
    ∀ k, ((List.range k).foldl
      (fun padded i => padded.set i ⟨input.getD i 0, 0⟩)
      (List.replicate n (⟨0, 0⟩ : Cplx))).length = n := by
  intro k
  induction k with
  | zero => simp
  | succ k ih =>
    rw [List.range_succ, List.foldl_append]
    simp only [List.foldl_cons, List.foldl_nil, List.length_set]
    exact ih

/-- After `k` iterations of the write loop, slot `j` holds the input
value when `j < k` (and the slot exists), the initial zero otherwise. -/
lemma zero_pad_foldl_getElem? (input : List ℚ) (n : Nat) :
    ∀ k j, ((List.range k).foldl
      (fun padded i => padded.set i ⟨input.getD i 0, 0⟩)
      (List.replicate n (⟨0, 0⟩ : Cplx)))[j]? =
      if j < k ∧ j < n then some ⟨input.getD j 0, 0⟩
      else (List.replicate n (⟨0, 0⟩ : Cplx))[j]? := by
  intro k
  induction k with
  | zero => intro j; simp
  | succ k ih =>
    intro j
    rw [List.range_succ, List.foldl_append]
    simp only [List.foldl_cons, List.foldl_nil]
    rw [List.getElem?_set, zero_pad_foldl_length input n k, ih j]
    by_cases hkj : k = j
    · subst hkj
      by_cases hkn : k < n
      · have h1 : k < k + 1 ∧ k < n := ⟨by omega, hkn⟩
        rw [if_pos rfl, if_pos hkn, if_pos h1]
      · have h1 : ¬(k < k + 1 ∧ k < n) := by omega
        rw [if_pos rfl, if_neg hkn, if_neg h1, List.getElem?_replicate,
          if_neg hkn]
    · rw [if_neg hkj]
      by_cases h1 : j < k ∧ j < n
      · have h2 : j < k + 1 ∧ j < n := ⟨by omega, h1.2⟩
        rw [if_pos h1, if_pos h2]
      · have h2 : ¬(j < k + 1 ∧ j < n) := by omega
        rw [if_neg h1, if_neg h2]

/-- Claim C9 (confirmed): for a target length at least the input
length, `zero_pad` returns a vector of exactly the target length whose
first `len(input)` entries are the input values (real part, zero
imaginary) and whose remaining entries are zero; a longer input is
rejected with a panic (modelled by `none`), not a recoverable error. -/
theorem claim_C9_zero_pad (input : List ℚ) (n : Nat) :
    (input.length ≤ n → ∃ l, zero_pad input n = some l ∧ l.length = n ∧
      (∀ i, i < input.length → l.getD i ⟨0, 0⟩ = ⟨input.getD i 0, 0⟩) ∧
      (∀ i, input.length ≤ i → i < n → l.getD i ⟨0, 0⟩ = ⟨0, 0⟩)) ∧
    (n < input.length → zero_pad input n = none) := by
  constructor
  · intro hle
    refine ⟨_, by unfold zero_pad; rw [if_neg (by omega)], ?_, ?_, ?_⟩
    · exact zero_pad_foldl_length input n input.length
    · intro i hi
      have hcond : i < input.length ∧ i < n := ⟨hi, by omega⟩
      rw [List.getD_eq_getElem?_getD, zero_pad_foldl_getElem?, if_pos hcond]
      rfl
    · intro i hge hlt
      have hcond : ¬ (i < input.length ∧ i < n) := by omega
      rw [List.getD_eq_getElem?_getD, zero_pad_foldl_getElem?, if_neg hcond,
        List.getElem?_replicate, if_pos hlt]
      rfl
  · intro hlt
    unfold zero_pad
    rw [if_pos (by omega)]

/-- Witness for C9: `zero_pad [1, 2, 3] 6` succeeds with the test
vector of `src/audio_correlation.rs`. -/
theorem claim_C9_zero_pad_witness :
    ∃ l, zero_pad [1, 2, 3] 6 = some l ∧ l.length = 6 ∧
      (∀ i, i < ([1, 2, 3] : List ℚ).length →
        l.getD i ⟨0, 0⟩ = ⟨([1, 2, 3] : List ℚ).getD i 0, 0⟩) ∧
      (∀ i, ([1, 2, 3] : List ℚ).length ≤ i → i < 6 → l.getD i ⟨0, 0⟩ = ⟨0, 0⟩) :=
  (claim_C9_zero_pad [1, 2, 3] 6).1 (by decide)

/-! ## Cue-list invariant theorems (claim C6) -/

/-- A sorted list is monotone in its (defaulted) indexing. -/
lemma sorted_getD_mono {l : List ℚ} (hs : l.Sorted (· ≤ ·)) {i j : Nat}
    (hij : i ≤ j) (hj : j < l.length) : l.getD i 0 ≤ l.getD j 0 := by
  rcases Nat.eq_or_lt_of_le hij with rfl | hlt
  · exact le_refl _
  · have hi : i < l.length := lt_trans hlt hj
    rw [List.getD_eq_getElem _ _ hi, List.getD_eq_getElem _ _ hj]
    have := List.Sorted.rel_get_of_lt hs (a := ⟨i, hi⟩) (b := ⟨j, hj⟩)
      (Fin.mk_lt_mk.mpr hlt)
    simpa using this

/-- Invariant of the `binary_search_by` loop: starting from a window
`[left, right)` of a sorted list where everything before `left` is
`≤ t` and everything from `right` on is `≥ t`, the returned position
(hit or insertion point) splits the list into a prefix `≤ t` and a
suffix `≥ t`. -/
lemma rustBinarySearchAux_spec (l : List ℚ) (t : ℚ) (hs : l.Sorted (· ≤ ·)) :
    ∀ (fuel left right : Nat), left ≤ right → right ≤ l.length →
    right - left < fuel →
    (∀ j, j < left → l.getD j 0 ≤ t) →
    (∀ j, right ≤ j → j < l.length → t ≤ l.getD j 0) →
    ∀ i, (rustBinarySearchAux l t fuel left right = .inl i ∨
          rustBinarySearchAux l t fuel left right = .inr i) →
    i ≤ l.length ∧ (∀ j, j < i → l.getD j 0 ≤ t) ∧
      (∀ j, i ≤ j → j < l.length → t ≤ l.getD j 0) := by
  intro fuel
  induction fuel with
  | zero => intro left right h1 h2 h3; omega
  | succ fuel ih =>
    intro left right hlr hrl hfuel hlow hhigh i hres
    simp only [rustBinarySearchAux] at hres
    by_cases hlt : left < right
    · rw [if_pos hlt] at hres
      have hmidlt : left + (right - left) / 2 < right := by omega
      by_cases hc1 : l.getD (left + (right - left) / 2) 0 < t
      · rw [if_pos hc1] at hres
        refine ih (left + (right - left) / 2 + 1) right (by omega) hrl (by omega)
          ?_ hhigh i hres
        intro j hj
        exact le_trans
          (sorted_getD_mono hs (by omega : j ≤ left + (right - left) / 2) (by omega))
          (le_of_lt hc1)
      · rw [if_neg hc1] at hres
        by_cases hc2 : t < l.getD (left + (right - left) / 2) 0
        · rw [if_pos hc2] at hres
          refine ih left (left + (right - left) / 2) (by omega) (by omega) (by omega)
            hlow ?_ i hres
          intro j hj hjl
          exact le_trans (le_of_lt hc2) (sorted_getD_mono hs hj hjl)
        · rw [if_neg hc2] at hres
          have heq : l.getD (left + (right - left) / 2) 0 = t :=
            le_antisymm (not_lt.mp hc2) (not_lt.mp hc1)
          rcases hres with hres | hres
          · injection hres with hi
            subst hi
            refine ⟨by omega, ?_, ?_⟩
            · intro j hj
              exact le_trans (sorted_getD_mono hs (by omega) (by omega)) heq.le
            · intro j hj hjl
              exact le_trans heq.ge (sorted_getD_mono hs hj hjl)
          · exact Sum.noConfusion hres
    · rw [if_neg hlt] at hres
      rcases hres with hres | hres
      · exact Sum.noConfusion hres
      · injection hres with hi
        subst hi
        exact ⟨by omega, hlow, fun j hj hjl => hhigh j (by omega) hjl⟩

/-- Inserting `t` at a position whose prefix is `≤ t` and whose suffix
is `≥ t` keeps the list sorted. -/
lemma sorted_insertIdx : ∀ (l : List ℚ) (i : Nat) (t : ℚ), i ≤ l.length →
    (∀ j, j < i → l.getD j 0 ≤ t) →
    (∀ j, i ≤ j → j < l.length → t ≤ l.getD j 0) →
    l.Sorted (· ≤ ·) → (l.insertIdx i t).Sorted (· ≤ ·) := by
  intro l i
  induction i generalizing l with
  | zero =>
    intro t _ _ hhi hs
    rw [List.insertIdx_zero, List.sorted_cons]
    refine ⟨?_, hs⟩
    intro b hb
    obtain ⟨n, hn, rfl⟩ := List.mem_iff_getElem.mp hb
    have := hhi n (Nat.zero_le n) hn
    rwa [List.getD_eq_getElem _ _ hn] at this
  | succ i ih =>
    intro t hil hlo hhi hs
    cases l with
    | nil => simp at hil
    | cons a l' =>
      rw [List.insertIdx_succ_cons]
      rw [List.sorted_cons] at hs ⊢
      obtain ⟨ha, hs'⟩ := hs
      refine ⟨?_, ih l' t ?_ ?_ ?_ hs'⟩
      · intro b hb
        rcases (List.mem_insertIdx (by simpa using hil)).mp hb with rfl | hb
        · have := hlo 0 (Nat.succ_pos i)
          simpa using this
        · exact ha b hb
      · simpa using hil
      · intro j hj
        have := hlo (j + 1) (by omega)
        simpa using this
      · intro j hj hjl
        have := hhi (j + 1) (by omega) (by simpa using Nat.succ_lt_succ hjl)
        simpa using this

/-- Removing any index keeps the list sorted. -/
lemma sorted_eraseIdx (l : List ℚ) (k : Nat) (hs : l.Sorted (· ≤ ·)) :
    (l.eraseIdx k).Sorted (· ≤ ·) :=
  List.Pairwise.sublist (List.eraseIdx_sublist l k) hs

/-- Inserting at the position returned by `binary_search_by` (hit or
insertion point alike) keeps a sorted cue list sorted. -/
lemma rustBinarySearch_insert_sorted (cues : List ℚ) (time : ℚ) (i : Nat)
    (hs : cues.Sorted (· ≤ ·))
    (h : rustBinarySearch cues time = .inl i ∨
         rustBinarySearch cues time = .inr i) :
    (cues.insertIdx i time).Sorted (· ≤ ·) := by
  obtain ⟨hil, hlo, hhi⟩ := rustBinarySearchAux_spec cues time hs
    (cues.length + 1) 0 cues.length (Nat.zero_le _) (le_refl _) (by omega)
    (fun j hj => absurd hj (by omega))
    (fun j h1 h2 => absurd h2 (by omega)) i h
  exact sorted_insertIdx cues i time hil hlo hhi hs

/-- Any command that completes (loop continuing or exiting) leaves the
cue list sorted. -/
lemma cut_interactive_step_sorted (cues : List ℚ) (buf : String)
    (cues' : List ℚ) (hs : cues.Sorted (· ≤ ·))
    (h : stepCues (cut_interactive_step cues buf) = some cues') :
    cues'.Sorted (· ≤ ·) := by
  simp only [cut_interactive_step] at h
  repeat' split at h
  all_goals simp only [stepCues, Option.some.injEq] at h
  all_goals try exact Option.noConfusion h
  all_goals try subst h
  all_goals try exact hs
  all_goals try exact sorted_eraseIdx cues _ hs
  all_goals
    rename_i i heq
    first
      | exact rustBinarySearch_insert_sorted cues _ i hs (Or.inl heq)
      | exact rustBinarySearch_insert_sorted cues _ i hs (Or.inr heq)

/-- Claim C6 (confirmed): the session seeds the cue list as
`[0, total_duration]`, every successfully executed command preserves
the sorted-ascending invariant (`add` inserting at the binary-search
position, duplicates permitted), and `add 10`, `add 5`, `add 20` from
`[0, 30]` produce `[0, 5, 10, 20, 30]`. -/
theorem claim_C6_cue_list_sorted :
    (∀ d : ℚ, initCues d = [0, d]) ∧
    (∀ (cues : List ℚ) (buf : String) (cues' : List ℚ),
      cues.Sorted (· ≤ ·) →
      (cut_interactive_step cues buf = .next cues' ∨
       cut_interactive_step cues buf = .halt cues') →
      cues'.Sorted (· ≤ ·)) ∧
    (cut_interactive_step [0, 30] "add 10" = .next [0, 10, 30] ∧
     cut_interactive_step [0, 10, 30] "add 5" = .next [0, 5, 10, 30] ∧
     cut_interactive_step [0, 5, 10, 30] "add 20" = .next [0, 5, 10, 20, 30]) := by
  refine ⟨fun d => rfl, ?_, by decide, by decide, by decide⟩
  intro cues buf cues' hs h
  refine cut_interactive_step_sorted cues buf cues' hs ?_
  rcases h with h | h <;> rw [h] <;> rfl

/-- Witness for C6: stepping the sorted list `[0, 30]` with `add 10`
yields a sorted list. -/
theorem claim_C6_cue_list_sorted_witness :
    ([0, 10, 30] : List ℚ).Sorted (· ≤ ·) :=
  claim_C6_cue_list_sorted.2.1 [0, 30] "add 10" [0, 10, 30] (by decide)
    (Or.inl (by decide))
